import Mathlib

/-!
Verification development for the sparql-join-algorithms repository.

The Rust sources are shallowly embedded: the memory-mapped byte buffer is a
`List Nat` of byte values, `Str` views are (offset, length) pairs into that
buffer, `Field` values are plain offsets with the `usize::MAX` sentinel, and
fallible or panicking code is modelled with `Option` / `Except`.  Machine
integers (`usize`) are modelled as `Nat`; saturating / checked arithmetic is
made explicit against `USIZE_MAX`.
-/

set_option maxRecDepth 200000

deriving instance DecidableEq for Except

namespace SparqlJoin

/-- A memory-mapped input buffer: a flat list of byte values (src/input.rs,
`Input.data`). -/
abbrev Buf := List Nat

/-- `usize::MAX` on the 64-bit targets the program is built for. -/
def USIZE_MAX : Nat := 2 ^ 64 - 1

/-- Byte constants from `mod ascii` in src/input.rs. -/
def nlByte : Nat := 10

/-- ASCII horizontal tab (src/input.rs `ascii::tab`). -/
def tabByte : Nat := 9

/-- ASCII space (src/input.rs `ascii::space`). -/
def spaceByte : Nat := 32

/-- ASCII double quote (src/input.rs `ascii::dquote`). -/
def dquoteByte : Nat := 34

/-- Encode an ASCII string literal as a byte list (test inputs and error
messages; all literals used are plain ASCII, where UTF-8 bytes and code
points coincide). -/
def ascii (s : String) : List Nat := s.data.map Char.toNat

/-- `memchr::memchr`: index of the first occurrence of byte `c`. -/
def memchr (c : Nat) : List Nat → Option Nat
  | [] => none
  | x :: xs => if x = c then some 0 else (memchr c xs).map (· + 1)

/-- `memchr::memchr2`: index of the first occurrence of byte `a` or byte
`b`. -/
def memchr2 (a b : Nat) : List Nat → Option Nat
  | [] => none
  | x :: xs => if x = a ∨ x = b then some 0 else (memchr2 a b xs).map (· + 1)

/-- `memchr::memrchr`: index of the last occurrence of byte `c`. -/
def memrchr (c : Nat) : List Nat → Option Nat
  | [] => none
  | x :: xs =>
    match memrchr c xs with
    | some i => some (i + 1)
    | none => if x = c then some 0 else none

theorem memchr_lt_length {c : Nat} {l : List Nat} {i : Nat}
    (h : memchr c l = some i) : i < l.length := by
  induction l generalizing i with
  | nil => simp [memchr] at h
  | cons x xs ih =>
    simp only [memchr] at h
    split at h
    · cases h; simp
    · cases hx : memchr c xs with
      | none => rw [hx] at h; simp at h
      | some j =>
        rw [hx] at h
        simp only [Option.map_some'] at h
        cases h
        have := ih hx
        simp; omega

theorem memrchr_lt_length {c : Nat} {l : List Nat} {i : Nat}
    (h : memrchr c l = some i) : i < l.length := by
  induction l generalizing i with
  | nil => simp [memrchr] at h
  | cons x xs ih =>
    cases hx : memrchr c xs with
    | some j =>
      simp only [memrchr, hx] at h
      cases h
      have := ih hx
      simp; omega
    | none =>
      simp only [memrchr, hx] at h
      split at h
      · cases h; simp
      · simp at h

theorem memchr_isSome_of_mem {c : Nat} {l : List Nat} (h : c ∈ l) :
    (memchr c l).isSome := by
  induction l with
  | nil => simp at h
  | cons x xs ih =>
    simp only [memchr]
    by_cases hx : x = c
    · simp [hx]
    · simp only [if_neg hx]
      rcases List.mem_cons.mp h with h1 | h2
      · exact absurd h1.symm hx
      · cases hm : memchr c xs with
        | none => have := ih h2; rw [hm] at this; simp at this
        | some j => simp

/-- `memchr c l = some i` reads byte `c` at index `i`. -/
theorem memchr_getD {c : Nat} {l : List Nat} {i : Nat}
    (h : memchr c l = some i) : l.getD i 0 = c := by
  induction l generalizing i with
  | nil => simp [memchr] at h
  | cons x xs ih =>
    simp only [memchr] at h
    split at h
    · cases h; simpa
    · cases hx : memchr c xs with
      | none => rw [hx] at h; simp at h
      | some j =>
        rw [hx] at h
        simp only [Option.map_some'] at h
        cases h
        simpa using ih hx

/-- A `Str` is a read-only view into the buffer (src/input.rs `Str`): we
record the offset and length of the viewed slice; the actual bytes are
recovered with `Str.bytes`.  Rust equality/hashing of `Str` is by slice
contents, so dictionary keys below use `Str.bytes`, not `Str` itself. -/
structure Str where
  off : Nat
  len : Nat
deriving DecidableEq, Repr

/-- The byte contents of a `Str` view. -/
def Str.bytes (buf : Buf) (s : Str) : List Nat := (buf.drop s.off).take s.len

/-- An input line (src/input.rs `InputLine`): buffer offset plus the line's
byte slice. -/
structure InputLine where
  offset : Nat
  data : List Nat
deriving DecidableEq, Repr

/-- `field_len` (src/input.rs lines 170-179).  Rust `expect`-panics are
modelled as `none`: `none` on empty data ("empty data"), on an unterminated
quoted field ("missing closing DQUOTE"), and on a plain field with no tab or
space terminator ("missing terminating TAB or SPACE"). -/
def field_len : List Nat → Option Nat
  | [] => none
  | c :: rest =>
    if c = dquoteByte then (memchr dquoteByte rest).map (· + 2)
    else memchr2 tabByte spaceByte (c :: rest)

/-- `InputLine::parse` (src/input.rs lines 203-213): measure the three field
lengths, skipping one separator byte after each field.  The returned `Str`
views carry absolute buffer offsets (the line slice starts at
`line.offset`). -/
def InputLine.parse (ln : InputLine) : Option (Str × Str × Str) := do
  let subj ← field_len ln.data
  let prop ← field_len (ln.data.drop (subj + 1))
  let objf ← field_len (ln.data.drop (subj + 1 + prop + 1))
  pure (⟨ln.offset, subj⟩, ⟨ln.offset + subj + 1, prop⟩,
        ⟨ln.offset + subj + 1 + prop + 1, objf⟩)

namespace Field

/-- `Field::INVALID = Field(usize::MAX)` (src/input.rs line 219). -/
def INVALID : Nat := USIZE_MAX

/-- `Field::is_valid` (src/input.rs lines 221-223). -/
def is_valid (f : Nat) : Bool := f ≠ INVALID

/-- `Field::advance` (src/input.rs lines 229-231):
`checked_add(by).unwrap_or(usize::MAX)`, i.e. the sum when it is
representable in `usize` and the `INVALID` sentinel otherwise. -/
def advance (f n : Nat) : Nat :=
  if f + n ≤ USIZE_MAX then f + n else USIZE_MAX

/-- `Field::make_range` (src/input.rs lines 237-239): the half-open range
`f .. f.advance(length)` represented as a (start, end) pair. -/
def make_range (f length : Nat) : Nat × Nat := (f, advance f length)

end Field

/-- `Input::extract_str` (src/input.rs lines 108-112): `none` models the
`assert!(field.is_valid())` failure and the `field_len` panics. -/
def extract_str (buf : Buf) (f : Nat) : Option (List Nat) :=
  if f = Field.INVALID then none
  else (field_len (buf.drop f)).map (fun k => (buf.drop f).take k)

/-- `Input::extract_field` (src/input.rs lines 114-119): a `Str` is already
carried together with its buffer offset in this model, so the pointer
subtraction is just the stored offset (the in-buffer assertion holds for all
`Str` values produced by `InputLine.parse` on lines of the buffer). -/
def extract_field (s : Str) : Nat := s.off

/-- Fuelled recursion core of `line_split`; the fuel only serves to make the
recursion structural (hence kernel-reducible), and `line_split_eq` below
recovers the natural recursion equation. -/
def line_split_go (off : Nat) : Nat → Buf → List InputLine
  | _, [] => []
  | 0, _ => []
  | fuel + 1, b :: bs =>
    match memchr nlByte (b :: bs) with
    | none => []
    | some i =>
      ⟨off, (b :: bs).take (i + 1)⟩
        :: line_split_go (off + i + 1) fuel ((b :: bs).drop (i + 1))

/-- `Input::mk_chunk_iter` without the `skip_first` handling
(src/input.rs lines 30-48): the `memchr_iter` + `scan` pipeline emits, for
each newline, the slice from the end of the previous emitted line through
that newline inclusive.  Bytes after the last newline are never emitted. -/
def line_split (off : Nat) (l : Buf) : List InputLine :=
  line_split_go off l.length l

theorem line_split_go_fuel {off f₁ f₂ : Nat} {l : Buf}
    (h₁ : l.length ≤ f₁) (h₂ : l.length ≤ f₂) :
    line_split_go off f₁ l = line_split_go off f₂ l := by
  induction f₁ generalizing off f₂ l with
  | zero =>
    cases l with
    | nil => cases f₂ <;> rfl
    | cons b bs => simp at h₁
  | succ f ih =>
    cases l with
    | nil => cases f₂ <;> rfl
    | cons b bs =>
      cases f₂ with
      | zero => simp at h₂
      | succ f' =>
        simp only [line_split_go]
        cases hm : memchr nlByte (b :: bs) with
        | none => rfl
        | some i =>
          have hi := memchr_lt_length hm
          have h1 : ((b :: bs).drop (i + 1)).length ≤ f := by
            simp only [List.length_drop]
            simp at h₁ hi ⊢
            omega
          have h2 : ((b :: bs).drop (i + 1)).length ≤ f' := by
            simp only [List.length_drop]
            simp at h₂ hi ⊢
            omega
          exact congrArg
            (List.cons ⟨off, (b :: bs).take (i + 1)⟩) (ih h1 h2)

/-- The natural recursion equation of `line_split`. -/
theorem line_split_eq (off : Nat) (l : Buf) :
    line_split off l =
      match memchr nlByte l with
      | none => []
      | some i =>
        ⟨off, l.take (i + 1)⟩ :: line_split (off + i + 1) (l.drop (i + 1)) := by
  cases l with
  | nil => rfl
  | cons b bs =>
    show line_split_go off (bs.length + 1) (b :: bs) = _
    simp only [line_split_go]
    cases hm : memchr nlByte (b :: bs) with
    | none => rfl
    | some i =>
      have hi := memchr_lt_length hm
      have h1 : ((b :: bs).drop (i + 1)).length ≤ bs.length := by
        simp only [List.length_drop, List.length_cons] at hi ⊢
        omega
      exact congrArg (List.cons ⟨off, (b :: bs).take (i + 1)⟩)
        (line_split_go_fuel h1 (le_refl _))

/-- `Input::mk_chunk_iter` (src/input.rs lines 30-48) with `skip_first`. -/
def mk_chunk_iter (chunk : Buf) (offset : Nat) (skip_first : Bool) :
    List InputLine :=
  let ls := line_split offset chunk
  if skip_first then ls.drop 1 else ls

/-- `Input::iter_lines` (src/input.rs lines 50-52). -/
def iter_lines (buf : Buf) : List InputLine := mk_chunk_iter buf 0 false

/-- `usize::next_power_of_two` (Rust): smallest power of two `≥ n`, with
`0 → 1`. -/
def nextPow2 (n : Nat) : Nat :=
  if n ≤ 1 then 1 else 2 ^ (Nat.log2 (n - 1) + 1)

/-- `best_chunks` (src/input.rs lines 122-129): the bit trick
`(m + b2 - 1) & (!b2 + 1)` with `b2` a power of two rounds `m = length /
count` up to the next multiple of `b2`. -/
def best_chunks (count base length : Nat) : Nat :=
  let min_per_w := length / count
  let base_2 := nextPow2 base
  ((min_per_w + base_2 - 1) / base_2) * base_2

/-- Fuelled recursion core of `chunksOf` (fuel for structural recursion
only). -/
def chunksOf_go (n : Nat) : Nat → List α → List (List α)
  | _, [] => []
  | 0, _ => []
  | fuel + 1, x :: xs =>
    if n = 0 then []
    else (x :: xs).take n :: chunksOf_go n fuel ((x :: xs).drop n)

/-- `slice::chunks` (Rust): split into consecutive chunks of `n` elements,
the last possibly shorter.  Rust panics for `n = 0`; that case is
unreachable here (chunk sizes are ≥ 1) and modelled as `[]`. -/
def chunksOf (n : Nat) (l : List α) : List (List α) :=
  chunksOf_go n l.length l

theorem chunksOf_go_fuel {n f₁ f₂ : Nat} {l : List α}
    (h₁ : l.length ≤ f₁) (h₂ : l.length ≤ f₂) :
    chunksOf_go n f₁ l = chunksOf_go n f₂ l := by
  induction f₁ generalizing f₂ l with
  | zero =>
    cases l with
    | nil => cases f₂ <;> rfl
    | cons x xs => simp at h₁
  | succ f ih =>
    cases l with
    | nil => cases f₂ <;> rfl
    | cons x xs =>
      cases f₂ with
      | zero => simp at h₂
      | succ f' =>
        simp only [chunksOf_go]
        by_cases hn : n = 0
        · simp [hn]
        · simp only [if_neg hn]
          have h1 : ((x :: xs).drop n).length ≤ f := by
            simp only [List.length_drop]; simp at h₁ ⊢; omega
          have h2 : ((x :: xs).drop n).length ≤ f' := by
            simp only [List.length_drop]; simp at h₂ ⊢; omega
          rw [ih h1 h2]

/-- The natural recursion equation of `chunksOf`. -/
theorem chunksOf_eq (n : Nat) (l : List α) :
    chunksOf n l =
      match l with
      | [] => []
      | x :: xs =>
        if n = 0 then []
        else (x :: xs).take n :: chunksOf n ((x :: xs).drop n) := by
  cases l with
  | nil => rfl
  | cons x xs =>
    show chunksOf_go n (xs.length + 1) (x :: xs) = _
    simp only [chunksOf_go]
    by_cases hn : n = 0
    · simp [hn]
    · simp only [if_neg hn]
      have h1 : ((x :: xs).drop n).length ≤ xs.length := by
        simp only [List.length_drop]; simp; omega
      rw [chunksOf_go_fuel h1 (le_refl _)]
      rfl

/-- Fuelled recursion core of `break_chunk` (fuel for structural recursion
only). -/
def break_chunk_go (chunk_size : Nat) : Nat → Buf → Nat → List InputLine
  | 0, _, _ => []
  | fuel + 1, buf, base_offset =>
    if chunk_size = 0 then []
      -- with a zero chunk size, `prev` is empty, the `memrchr` fails and
      -- the Rust iterator ends immediately
    else if buf.length < chunk_size then []
    else
      match memrchr nlByte (buf.take chunk_size) with
      | none => []
      | some s =>
        match memchr nlByte (buf.drop chunk_size) with
        | none => []
        | some e' =>
          -- broken_line = full_buffer[s+1 ..= e'+chunk_size]
          ⟨base_offset + s + 1, (buf.drop (s + 1)).take (e' + chunk_size - s)⟩
            :: break_chunk_go chunk_size fuel (buf.drop chunk_size)
                (base_offset + chunk_size)

/-- `BreakChunk::next` (src/input.rs lines 140-162) unrolled into the list
of all items the iterator produces: per chunk-sized step, the single line
spanning the chunk boundary (from one past the last newline of the current
chunk through the first newline of the rest).  The iterator stops for good
when the remaining buffer is shorter than a chunk, when the current chunk
has no newline, or when the rest has no newline. -/
def break_chunk (buf : Buf) (base_offset chunk_size : Nat) : List InputLine :=
  break_chunk_go chunk_size (buf.length + 1) buf base_offset

/-- `Input::divide_chunks` (src/input.rs lines 54-106), returning the lines
each iterator produces.  `page_size_raw` stands for the value `getpagesize`
returns when `size_hint = 0`. -/
def divide_chunks (page_size_raw : Nat) (buf : Buf)
    (count size_hint : Nat) : List (List InputLine) :=
  if count < 3 then [mk_chunk_iter buf 0 false]
  else
    let page_size := if size_hint = 0 then page_size_raw else size_hint
    let workers := count - 1
    let chunk_size :=
      if workers * page_size ≥ buf.length then page_size
      else best_chunks workers page_size buf.length
    let bodies := ((chunksOf chunk_size buf).zip
        (List.range (chunksOf chunk_size buf).length)).map
      (fun p => mk_chunk_iter p.1 (p.2 * chunk_size) (decide (p.2 > 0)))
    bodies ++ [break_chunk buf 0 chunk_size]

/-- Association-list lookup, the model of `HashMap::get` (hash maps in the
sources are only ever read through `get`, so an association list in
insertion order is an exact model). -/
def alistLookup [DecidableEq K] (k : K) : List (K × A) → Option A
  | [] => none
  | e :: t => if e.1 = k then some e.2 else alistLookup k t

/-! ### Catalogue builder (src/join.rs lines 22-39) -/

/-- A result row: a fixed-width vector of Fields (`Vec<Field>`). -/
abbrev Row := List Nat

/-- Field-form relation (src/relation.rs `Relation`). -/
abbrev Relation := List (Nat × Nat)

/-- String-form relation (src/relation.rs `StrRelation`). -/
abbrev StrRelation := List (Str × Str)

/-- The catalogue / universe (src/relation.rs `Universe`): a map from
property-name byte strings to string-form relations.  The Rust `HashMap` is
keyed by `Str` contents and only read through `get`, so an association list
keyed by the byte contents is an exact model; the order of groups is
irrelevant, the order inside each group preserves input order (itertools
`into_group_map`). -/
abbrev Universe := List (List Nat × StrRelation)

/-- Append `v` to the group of key `k`, inserting a new group at the end if
the key is new (the `Extend` behaviour of `into_group_map`). -/
def groupInsert (u : Universe) (k : List Nat) (v : Str × Str) : Universe :=
  match u with
  | [] => [(k, [v])]
  | e :: rest =>
    if e.1 = k then (e.1, e.2 ++ [v]) :: rest
    else e :: groupInsert rest k v

/-- The universe built in `join` (src/join.rs lines 34-39): parse every
line, keep the triples whose property is in the requested relation set, and
group by property.  A parse failure is a Rust panic, modelled as `none`.
`rel_set` is the set of join relations (the `--show-table` list is empty in
everything modelled here). -/
def buildUniverse (buf : Buf) (rel_set : List (List Nat)) :
    Option Universe :=
  (iter_lines buf).foldlM
    (fun u ln => do
      let (s, p, o) ← ln.parse
      let pb := p.bytes buf
      pure (if rel_set.contains pb then groupInsert u pb (s, o) else u))
    []

/-! ### Pipeline builder (src/join/pipeline.rs) -/

/-- The `Validation` accumulator (src/join/pipeline.rs lines 159-267): stays
`valid` while every item is valid, switches to `invalid` at the first
invalid item and from then on collects only the invalid items. -/
inductive Validation (T E : Type) where
  | valid (t : T)
  | invalid (e : E)
deriving DecidableEq, Repr

/-- One `Extend` step of the `Validation` accumulator. -/
def validationExtend (acc : Validation (List T) (List E))
    (it : Validation T E) : Validation (List T) (List E) :=
  match acc, it with
  | .valid ts, .valid t => .valid (ts ++ [t])
  | .valid _, .invalid e => .invalid [e]
  | .invalid es, .valid _ => .invalid es
  | .invalid es, .invalid e => .invalid (es ++ [e])

/-- `FromIterator`/`Extend` for `Validation` specialised to the use in
`Pipeline::build`: fold the items, collecting the valid values until the
first invalid one, then collecting every invalid value. -/
def collectValidation (items : List (Validation T E)) :
    Validation (List T) (List E) :=
  items.foldl validationExtend (.valid [])

/-- The "unknown relation(s): …" message of `Pipeline::build`
(src/join/pipeline.rs lines 33-50), as its byte string. -/
def unknownMsg (unknown : List (List Nat)) : List Nat :=
  let n := unknown.length
  ascii "unknown " ++ (if n = 1 then ascii "relation" else ascii "relations")
    ++ ascii ": "
    ++ ((unknown.zip (List.range n)).map
        (fun p =>
          if p.2 = 0 then p.1
          else if p.2 + 1 = n then ascii ", and " ++ p.1
          else ascii ", " ++ p.1)).flatten

/-- A dictionary from object byte-contents to representative subject Fields
(`HashMap<Str, Field>`, keyed by slice contents). -/
abbrev Dict := List (List Nat × Nat)

/-- One entry of `mapped_objs` (src/join/pipeline.rs lines 58-74): walk a
string relation, mapping each distinct object contents to the Field of the
first subject seen with that object (`input.extract_field(*subj)`), and
produce the intermediate relation of (subject Str, object Field) pairs. -/
def mapRelStep (buf : Buf) (acc : List (Str × Nat) × Dict) (p : Str × Str) :
    List (Str × Nat) × Dict :=
  let oc := p.2.bytes buf
  match alistLookup oc acc.2 with
  | some f => (acc.1 ++ [(p.1, f)], acc.2)
  | none =>
    let f := extract_field p.1
    (acc.1 ++ [(p.1, f)], acc.2 ++ [(oc, f)])

/-- See `mapRelStep` for the per-pair step. -/
def mapRel (buf : Buf) (rel : StrRelation) : List (Str × Nat) × Dict :=
  rel.foldl (mapRelStep buf) ([], [])

/-- `Pipeline::resolve` (src/join/pipeline.rs lines 131-156): keep only rows
whose subject contents appear in the dictionary, replace the subject with
the dictionary's Field and track the running (min, max) of those subject
Fields.  The range slot keeps its initial `(INVALID, INVALID)` value when no
row matches. -/
def Pipeline.resolve (buf : Buf) (dict : Dict)
    (tbl : List (Str × Nat)) : Relation × (Nat × Nat) :=
  let st := tbl.foldl
    (fun (acc : Relation × (Nat × Nat) × Bool) p =>
      match alistLookup (p.1.bytes buf) dict with
      | none => acc
      | some subj_f =>
        let rel := acc.1 ++ [(subj_f, p.2)]
        if acc.2.2 then (rel, (subj_f, subj_f), false)
        else (rel, (min acc.2.1.1 subj_f, max acc.2.1.2 subj_f), false))
    ([], (Field.INVALID, Field.INVALID), true)
  (st.1, st.2.1)

/-- Name resolution of one requested relation (src/join/pipeline.rs lines
24-30). -/
def lookupValidation (univ : Universe) (name : List Nat) :
    Validation StrRelation (List Nat) :=
  match alistLookup name univ with
  | some r => Validation.valid r
  | none => Validation.invalid name

/-- The output of `Pipeline::build`. -/
structure Pipeline where
  relations : List Relation
  ranges : List (Nat × Nat)
deriving DecidableEq, Repr

/-- `Pipeline::build` (src/join/pipeline.rs lines 18-129).  Name resolution
aggregates all unknown names through `Validation`; fewer than two relations
is "no join to be performed".  Stage 1 builds `mapped_objs` for all but the
last relation; the first relation's subjects are converted with
`extract_field` and its range slot keeps the `(INVALID, INVALID)` sentinel;
each middle relation is resolved against its predecessor's dictionary; the
last relation's objects are converted directly with `extract_field` and it
is resolved against the second-to-last dictionary. -/
def Pipeline.build (buf : Buf) (univ : Universe)
    (relation_names : List (List Nat)) : Except (List Nat) Pipeline :=
  match collectValidation (relation_names.map (lookupValidation univ)) with
  | .invalid unknown => .error (unknownMsg unknown)
  | .valid rels =>
    if rels.length < 2 then .error (ascii "no join to be performed")
    else
      let mapped := rels.dropLast.map (mapRel buf)
      let dicts := mapped.map (·.2)
      -- first relation: subjects converted with extract_field, range unused
      let rel0 := (mapped.headD ([], [])).1.map
        (fun p => (extract_field p.1, p.2))
      -- middle relations: mapped[k] resolved with dicts[k-1]
      let middles := (mapped.tail.zip dicts).map
        (fun p => Pipeline.resolve buf p.2 p.1.1)
      -- last relation: objects converted directly, resolved with the last
      -- dictionary
      let lastTbl := (rels.getLastD []).map
        (fun p => (p.1, extract_field p.2))
      let lastRes := Pipeline.resolve buf (dicts.getLastD []) lastTbl
      .ok { relations := rel0 :: middles.map (·.1) ++ [lastRes.1],
            ranges := (Field.INVALID, Field.INVALID)
                      :: middles.map (·.2) ++ [lastRes.2] }

/-! ### Hash-join engine (src/join.rs `mod hash`) -/

/-- One hash table `HashMap<Field, Vec<Vec<Field>>>`, modelled as an
association list (only `entry().or_default().push` and `get` are used, so
iteration order never matters). -/
abbrev HashTable := List (Nat × List Row)

/-- `entry(key).or_default().push(row)`. -/
def hashInsert : HashTable → Nat → Row → HashTable
  | [], k, r => [(k, [r])]
  | e :: t, k, r =>
    if e.1 = k then (e.1, e.2 ++ [r]) :: t else e :: hashInsert t k r

/-- `slice::partition_point` (Rust): for a slice partitioned by `pred`
(a true prefix followed by a false suffix, which holds at every use below),
the index of the first element for which `pred` is false. -/
def partition_point (pred : α → Bool) (l : List α) : Nat :=
  (l.takeWhile pred).length

/-- `hash::Impl::simple_hash` (src/join.rs lines 289-304): pop every row of
the join table into `hash_tables[0]` keyed by `row[index]`; set
`field_ranges[0] = Field(0)..Field(0).advance(usize::MAX)` and all other
ranges to INVALID..INVALID.  Popping traverses the table from its end. -/
def simple_hash (jt : List Row) (index : Nat) :
    List (Nat × Nat) × List HashTable :=
  let table0 := jt.reverse.foldl
    (fun t row => hashInsert t (row.getD index 0) row) []
  (Field.make_range 0 USIZE_MAX
     :: List.replicate 7 (Field.INVALID, Field.INVALID),
   table0 :: List.replicate 7 [])

/-- The eight bucket field-ranges of `hash::Impl::partitioned_hash`
(src/join.rs lines 320-329): `ranges[0] = Field(0).make_range(lo +
per_bucket)`, `ranges[k] = ranges[k-1].end.make_range(per_bucket)`, with
`per_bucket = max((hi - lo + 1) / 8, 128)`. -/
def bucketRanges (lo hi : Nat) : List (Nat × Nat) :=
  let per_chunk := max ((hi + 1 - lo) / 8) 128
  (List.range 7).foldl
    (fun acc _ =>
      acc ++ [Field.make_range (acc.getLastD (0, 0)).2 per_chunk])
    [Field.make_range 0 (lo + per_chunk)]

/-- `hash::Impl::partitioned_hash` (src/join.rs lines 308-342).  The two
`debug_assert!`s are modelled as error results (they abort builds with debug
assertions); for each bucket range, every row of the join table whose
`row[index]` lies in the half-open range is inserted into that bucket's hash
table. -/
def partitioned_hash (jt : List Row) (index : Nat)
    (field_range : Nat × Nat) :
    Except (List Nat) (List (Nat × Nat) × List HashTable) :=
  if ¬ (field_range.1 ≤ field_range.2) then
    .error (ascii "assertion failed: invalid range")
  else if field_range.1 = Field.INVALID then
    .error (ascii "assertion failed: field_range.0 != Field::INVALID")
  else
    let ranges := bucketRanges field_range.1 field_range.2
    let tables := ranges.map
      (fun r => jt.foldl
        (fun t row =>
          let k := row.getD index 0
          if r.1 ≤ k ∧ k < r.2 then hashInsert t k row else t)
        [])
    .ok (ranges, tables)

/-- `hash::Impl::scan_hashed` (src/join.rs lines 344-371): for each (subj,
obj) pair of the right-hand relation, binary-search the owning bucket by
`partition_point(range.start <= subj)`, look `subj` up in that bucket's
table and emit one updated clone (`row[index+1] = obj`) per matching row.
`idx - 1` underflows (a Rust panic) when `idx = 0`; that is modelled as an
error result and proved unreachable (`ranges[0].start = 0`). -/
def scan_hashed (ranges : List (Nat × Nat)) (tables : List HashTable)
    (index : Nat) (relation : Relation) : Except (List Nat) (List Row) :=
  relation.foldlM
    (fun out p => do
      let idx := partition_point (fun r => decide (r.1 ≤ p.1)) ranges
      if idx = 0 then
        .error (ascii "panic: index out of bounds")
      else
        let hm := tables.getD (idx - 1) []
        let matched := ((alistLookup p.1 hm).getD []).map
          (fun row => row.set (index + 1) p.2)
        .ok (out ++ matched))
    []

/-- A freshly seeded row of `join` at `index = 0` (src/join.rs lines
382-390 and 448-455): a vector of `join_count + 1` INVALID fields with
`row[0] = subj` and `row[1] = obj`. -/
def seedRow (join_count subj obj : Nat) : Row :=
  (((List.replicate (join_count + 1) Field.INVALID).set 0 subj).set 1 obj)

/-- `hash::Impl::join` (src/join.rs lines 375-405) as a step function on the
join table: seed at `index = 0`, otherwise build (simple or partitioned)
and probe. -/
def hash_join_step (improved : Bool) (join_count : Nat) (jt : List Row)
    (index : Nat) (relation : Relation) (field_range : Nat × Nat) :
    Except (List Nat) (List Row) :=
  if index = 0 then
    .ok (jt ++ relation.map (fun p => seedRow join_count p.1 p.2))
  else do
    let (ranges, tables) ←
      if improved then partitioned_hash jt index field_range
      else .ok (simple_hash jt index)
    scan_hashed ranges tables index relation

/-! ### Sort-merge engine (src/join.rs `mod sort_merge`) -/

/-- The sorts used by `sort_merge::Impl::join`
(`sort_unstable_by_key`/`par_sort_unstable_by_key` on the join table and
`sort_unstable`/`par_sort_unstable` on the relation).  An unstable sort's
order among equal keys is unspecified; this model uses a stable merge sort,
one admissible outcome, and the final results are compared as multisets. -/
def insertSorted (le : A → A → Bool) (x : A) : List A → List A
  | [] => [x]
  | y :: ys => if le x y then x :: y :: ys else y :: insertSorted le x ys

/-- Insertion sort: the deterministic stand-in for the unstable sorts. -/
def insertionSort (le : A → A → Bool) : List A → List A
  | [] => []
  | x :: xs => insertSorted le x (insertionSort le xs)

/-- The left-hand side sort, by the join column only. -/
def sortByKey (key : Row → Nat) (jt : List Row) : List Row :=
  insertionSort (fun a b => key a ≤ key b) jt

/-- The right-hand side sort: full lexicographic (subject, object) order. -/
def sortPairs (rel : Relation) : Relation :=
  insertionSort (fun a b => a.1 < b.1 ∨ (a.1 = b.1 ∧ a.2 ≤ b.2)) rel

/-- The per-row body of the merge loop in `sort_merge::Impl::join`
(src/join.rs lines 511-541), processing the rows of one chunk:
returns the updated rows of the chunk, the absolute deletion indices, and
the duplicated rows sent through the channel.  `r` is the right-hand
relation, `i` the current right index, `base + rIdx` the absolute index of
the first remaining row.  The `while relation[i].0 < lhs_k` advance is the
length of the scanned prefix; running past the end aborts the chunk,
marking all remaining rows for deletion. -/
def mergeChunkRows (r : Relation) (index base : Nat) :
    Nat → Nat → List Row → List Row × List Nat × List Row
  | _, _, [] => ([], [], [])
  | rIdx, i, row :: rest =>
    let lhs_k := row.getD index 0
    let adv := ((r.drop i).takeWhile (fun x => decide (x.1 < lhs_k))).length
    let i' := i + adv
    if i' ≥ r.length then
      -- abort(r_idx): every remaining row of the chunk is marked deleted
      (row :: rest, List.range' (base + rIdx) (rest.length + 1), [])
    else if (r.getD i' (0, 0)).1 ≠ lhs_k then
      let (rs, ds, us) := mergeChunkRows r index base (rIdx + 1) i' rest
      (row :: rs, (base + rIdx) :: ds, us)
    else
      let obj := (r.getD i' (0, 0)).2
      let row' := row.set (index + 1) obj
      let dups := ((r.drop (i' + 1)).takeWhile (fun x => x.1 = lhs_k)).map
        (fun e => row'.set (index + 1) e.2)
      let (rs, ds, us) := mergeChunkRows r index base (rIdx + 1) i' rest
      (row' :: rs, ds, dups ++ us)

/-- One chunk of the merge phase (src/join.rs lines 494-543): locate the
chunk's start in the right-hand side with `partition_point`, abort if it is
past the end, otherwise walk the chunk. -/
def mergeChunk (r : Relation) (index chunk_index : Nat)
    (chunk : List Row) : List Row × List Nat × List Row :=
  let fst_key := (chunk.headD []).getD index 0
  let i := partition_point (fun x => decide (x.1 < fst_key)) r
  let base := chunk_index * 1024
  if i ≥ r.length then
    (chunk, List.range' base chunk.length, [])
  else
    mergeChunkRows r index base 0 i chunk

/-- The `par_chunks_mut(1024).enumerate().map(...)` loop of the merge phase
(src/join.rs lines 491-545), processing the chunks in order with a running
chunk index. -/
def mergeChunks (r : Relation) (index chunk_index : Nat) :
    List (List Row) → List (List Row × List Nat × List Row)
  | [] => []
  | c :: cs =>
    mergeChunk r index chunk_index c :: mergeChunks r index (chunk_index + 1) cs

/-- `Vec::swap_remove` (Rust): remove index `i`, substituting the last
element. -/
def swapRemove (l : List Row) (i : Nat) : List Row :=
  (l.set i (l.getLastD [])).dropLast

/-- `sort_merge::Impl::join` (src/join.rs lines 441-561) as a step function:
seed at `index = 0`; otherwise sort both sides, merge in 1024-row chunks,
apply the per-chunk deletion indices in globally descending order with
`swap_remove`, and absorb the duplicated rows from the channel.  The
deletion buffer is collected in chunk order (`collect_into_vec`), so its
`sort_unstable` is the identity; channel messages are absorbed in chunk
order, one admissible interleaving. -/
def sort_merge_join_step (improved : Bool) (join_count : Nat)
    (jt : List Row) (index : Nat) (relation : Relation)
    (_field_range : Nat × Nat) : Except (List Nat) (List Row) :=
  if index = 0 then
    .ok (jt ++ relation.map (fun p => seedRow join_count p.1 p.2))
  else
    -- improved and naive sort the same data; the variants differ only in
    -- how the work is scheduled
    let jt' := sortByKey (fun row => row.getD index 0) jt
    let rel' := sortPairs relation
    let results := mergeChunks rel' index 0 (chunksOf 1024 jt')
    let newJt := (results.map (·.1)).flatten
    let dels := (results.map (·.2.1)).flatten
    let dups := (results.map (·.2.2)).flatten
    .ok ((dels.reverse.foldl swapRemove newJt) ++ dups)

/-! ### Driver (src/join.rs `join`, src/main.rs) -/

/-- The per-step loop of `join` (src/join.rs lines 80-91) with an explicit
running step index: fold the chosen engine over the remaining (relation,
range) pairs. -/
def runEngineGo
    (step : List Row → Nat → Relation → (Nat × Nat) →
      Except (List Nat) (List Row)) (i : Nat) :
    List (Relation × (Nat × Nat)) → List Row → Except (List Nat) (List Row)
  | [], jt => .ok jt
  | p :: rest, jt => do
    let jt' ← step jt i p.1 p.2
    runEngineGo step (i + 1) rest jt'

/-- The per-step loop of `join` (src/join.rs lines 80-91): run the chosen
engine over the pipeline's relations and ranges, starting from an empty
join table at step index 0. -/
def runEngine
    (step : List Row → Nat → Relation → (Nat × Nat) →
      Except (List Nat) (List Row))
    (pipe : Pipeline) : Except (List Nat) (List Row) :=
  runEngineGo step 0 (pipe.relations.zip pipe.ranges) []

/-- `join` (src/join.rs lines 22-93) with the engine abstracted: build the
universe for the requested relation names, check the mode flags, build the
pipeline and fold the engine.  Note the code builds the universe before
checking the flags.  An unparseable line is a Rust panic during universe
construction, modelled as an error result. -/
def joinMainWith
    (step : Nat → List Row → Nat → Relation → (Nat × Nat) →
      Except (List Nat) (List Row))
    (hash_join sort_merge_join : Bool) (buf : Buf)
    (relation_names : List (List Nat)) : Except (List Nat) (List Row) := do
  let univ ← match buildUniverse buf relation_names with
    | some u => Except.ok u
    | none => Except.error (ascii "panic: malformed input line")
  if ¬ hash_join ∧ ¬ sort_merge_join then
    Except.error (ascii "Neither --hash nor --sort specified.")
  else if hash_join ∧ sort_merge_join then
    Except.error (ascii "Modes --hash and --sort are mutually exclusive.")
  else
    let pipe ← Pipeline.build buf univ relation_names
    runEngine (step relation_names.length) pipe

/-- `join` with the engine the flags select (src/join.rs lines 74-78). -/
def joinMain (hash_join sort_merge_join improved : Bool) (buf : Buf)
    (relation_names : List (List Nat)) : Except (List Nat) (List Row) :=
  joinMainWith
    (fun n => if hash_join then hash_join_step improved n
              else sort_merge_join_step improved n)
    hash_join sort_merge_join buf relation_names

/-- Decoding of one result row for printing (src/join.rs lines 104-117):
`extract_str` then lossy decode; we stay at the byte level. -/
def decodeRow (buf : Buf) (row : Row) : Option (List (List Nat)) :=
  row.mapM (extract_str buf)

/-! ### Concrete inputs used by the claims -/

/-- The spec's scenario S1 input, byte for byte. -/
def specS1File : Buf := ascii "a\tp\tx\nb\tp\ty\nx\tq\t1\ny\tq\t2\nz\tq\t3\n"

/-- Scenario S1 with each object followed by a space, the termination
`field_len` demands of a line's final field. -/
def termS1File : Buf := ascii "a\tp\tx \nb\tp\ty \nx\tq\t1 \ny\tq\t2 \nz\tq\t3 \n"

/-- An input whose relation `p` has subject Fields at offsets 0 and 1024, so
the resolved subject range of relation `q` is (0, 1024): spread 1025 ≥ 1024
and not divisible by 8.  The 127 filler lines carry relation `f`, which is
not requested. -/
def wideFile : Buf :=
  ascii "a\tp\txx \n" ++ (List.replicate 127 (ascii "cc\tf\tz \n")).flatten
  ++ ascii "b\tp\ty \n" ++ ascii "xx\tq\t1 \n" ++ ascii "y\tq\t2 \n"

/-- An input where relation `q` resolves to zero rows (its only subject `z`
matches no object of `p`), leaving `q`'s range slot unpopulated. -/
def noMatchFile : Buf := ascii "a\tp\tx \nz\tq\t1 \n"

/-- An input containing only relation `p`. -/
def pOnlyFile : Buf := ascii "a\tp\tx \n"

/-- An input containing only relation `t`. -/
def tOnlyFile : Buf := ascii "a\tt\tx \n"

/-! ### Claim C10 -/

/-- Claim C10: `Field::advance` is total and saturating: it returns the
Field at offset `f + n` when that sum is representable in `usize`, and the
`INVALID` sentinel (`usize::MAX`) otherwise, so the result never exceeds
`INVALID`; `make_range` simply pairs the field with its advanced end and is
likewise total. -/
theorem C10_advance_saturating (f n : Nat) :
    (f + n ≤ USIZE_MAX → Field.advance f n = f + n) ∧
    (USIZE_MAX < f + n → Field.advance f n = USIZE_MAX) ∧
    Field.advance f n ≤ USIZE_MAX ∧
    Field.make_range f n = (f, Field.advance f n) := by
  refine ⟨fun h => by simp [Field.advance, h],
          fun h => by simp only [Field.advance]; rw [if_neg]; omega,
          ?_, rfl⟩
  by_cases h : f + n ≤ USIZE_MAX
  · simp only [Field.advance, if_pos h]; exact h
  · simp [Field.advance, h]

/-- Witness for C10 at concrete inputs, both below and above saturation. -/
theorem C10_witness :
    Field.advance 3 4 = 7 ∧ Field.advance USIZE_MAX 1 = USIZE_MAX :=
  ⟨(C10_advance_saturating 3 4).1 (by decide),
   (C10_advance_saturating USIZE_MAX 1).2.1 (by decide)⟩

/-! ### Claim C2 -/

/-- Claim C2 (code bug): with `lo = 0`, `hi = 1024` (a legal populated range:
`lo ≤ hi`, `lo` valid), the eight bucket ranges computed by
`partitioned_hash` are `[0,128), [128,256), …, [896,1024)`: the subject
Field `f = 1024` satisfies `lo ≤ f ≤ hi` yet is owned by no bucket, and a
left row whose join column is 1024 is inserted into none of the eight hash
tables, contradicting the coverage the spec requires. -/
theorem C2_bucket_gap :
    (0 : Nat) ≤ 1024 ∧ (1024 : Nat) ≤ 1024 ∧ (0 : Nat) ≠ Field.INVALID ∧
    bucketRanges 0 1024 =
      [(0, 128), (128, 256), (256, 384), (384, 512),
       (512, 640), (640, 768), (768, 896), (896, 1024)] ∧
    (∀ r ∈ bucketRanges 0 1024, ¬ (r.1 ≤ 1024 ∧ 1024 < r.2)) ∧
    partitioned_hash [[1024, 1024, Field.INVALID]] 1 (0, 1024) =
      .ok (bucketRanges 0 1024, List.replicate 8 []) := by
  refine ⟨by decide, by decide, by decide, by decide, by decide, by decide⟩

/-! ### Claim C1 -/

/-- Claim C1 (code bug): on `wideFile`, joining `p` then `q`, the naive
hash join and both sort-merge variants produce two rows, but the improved
hash join produces only one: the row keyed by subject Field 1024 falls past
the last bucket range (see C2) and its match is silently dropped, so the
four engine configurations do not produce the same multiset of rows. -/
theorem C1_engines_diverge :
    joinMain true false false wideFile [ascii "p", ascii "q"] =
      .ok [[0, 0, 1036], [1024, 1024, 1043]] ∧
    joinMain false true false wideFile [ascii "p", ascii "q"] =
      .ok [[0, 0, 1036], [1024, 1024, 1043]] ∧
    joinMain false true true wideFile [ascii "p", ascii "q"] =
      .ok [[0, 0, 1036], [1024, 1024, 1043]] ∧
    joinMain true false true wideFile [ascii "p", ascii "q"] =
      .ok [[0, 0, 1036]] ∧
    ¬ ([[0, 0, 1036]] : List Row).Perm [[0, 0, 1036], [1024, 1024, 1043]] := by
  refine ⟨by decide, by decide, by decide, by decide, fun h => ?_⟩
  simpa using h.length_eq

/-! ### Claim C3 -/

/-- Claim C3 (counterexample): on the spec's exact five-line input the run
does not succeed at all — `field_len` finds no tab or space terminator for
the object field `x\n`, a Rust panic — and on the input with the required
space terminators the middle column of each result row decodes to the
subject of relation `p`, not its object: the decoded rows are
{(a,a,1), (b,b,2)}, not the claimed {(a,x,1), (b,y,2)}. -/
theorem C3_counterexample :
    joinMain true false false specS1File [ascii "p", ascii "q"] =
      .error (ascii "panic: malformed input line") ∧
    joinMain true false false termS1File [ascii "p", ascii "q"] =
      .ok [[0, 0, 18], [7, 7, 25]] ∧
    ([[0, 0, 18], [7, 7, 25]] : List Row).map (decodeRow termS1File) =
      [some [ascii "a", ascii "a", ascii "1"],
       some [ascii "b", ascii "b", ascii "2"]] ∧
    [ascii "a", ascii "a", ascii "1"] ≠ [ascii "a", ascii "x", ascii "1"] := by
  refine ⟨by decide, by decide, by decide, by decide⟩

/-- Claim C3 (amended): with each object terminated by a space, all four
engine configurations succeed on the S1 scenario and the decoded result
rows are exactly the multiset {(a,a,1), (b,b,2)} — the middle column is the
dictionary's representative Field, which points at the first subject of
relation `p` carrying that object. -/
theorem C3_amended_decoded_rows :
    joinMain true false false termS1File [ascii "p", ascii "q"] =
      .ok [[0, 0, 18], [7, 7, 25]] ∧
    joinMain true false true termS1File [ascii "p", ascii "q"] =
      .ok [[0, 0, 18], [7, 7, 25]] ∧
    joinMain false true false termS1File [ascii "p", ascii "q"] =
      .ok [[0, 0, 18], [7, 7, 25]] ∧
    joinMain false true true termS1File [ascii "p", ascii "q"] =
      .ok [[0, 0, 18], [7, 7, 25]] ∧
    ([[0, 0, 18], [7, 7, 25]] : List Row).map (decodeRow termS1File) =
      [some [ascii "a", ascii "a", ascii "1"],
       some [ascii "b", ascii "b", ascii "2"]] := by
  refine ⟨by decide, by decide, by decide, by decide, by decide⟩

/-! ### Claims C4 and C5: the chunker and line iteration -/

/-- Claim C4 (counterexample): the chunker does not emit every byte in
exactly one line.  With one chunk and the buffer `"a"` (no newline) no line
at all is emitted, and with three chunks, size hint 4, and the
newline-terminated buffer `"aaaaaaa\n"` all three iterators are empty (the
first chunk `aaaa` has no newline, so the boundary iterator stops
immediately and both body iterators drop their partial lines): in both
cases the concatenation of all emitted lines is empty, not the buffer. -/
theorem C4_counterexample :
    ((divide_chunks 4096 (ascii "a") 1 0).flatten.map
        InputLine.data).flatten = [] ∧
    ascii "a" ≠ [] ∧
    divide_chunks 4096 (ascii "aaaaaaa\n") 3 4 = [[], [], []] ∧
    (ascii "aaaaaaa\n").getLast? = some nlByte ∧
    ascii "aaaaaaa\n" ≠ [] := by
  refine ⟨by decide, by decide, by decide, by decide, by decide⟩

/-- Claim C5 (counterexample): a final line lacking a trailing newline is
not emitted: on the buffer `"a\tp\tx"` (a complete triple, no newline) line
iteration emits nothing at all. -/
theorem C5_counterexample :
    iter_lines (ascii "a\tp\tx") = [] ∧ ascii "a\tp\tx" ≠ [] := by
  refine ⟨by decide, by decide⟩

/-! ### Validation lemmas, for claims C6 and C7 -/

/-- Reduction of a successful `Except` bind (the monad laws for the do
blocks of the driver). -/
theorem ok_bind {E A B : Type} (a : A) (f : A → Except E B) :
    ((Except.ok a : Except E A) >>= f) = f a := rfl

/-- The names a universe is missing, in request order. -/
def missingNames (univ : Universe) (names : List (List Nat)) :
    List (List Nat) :=
  names.filter (fun n => (alistLookup n univ).isNone)

theorem collect_fold_invalid (univ : Universe) :
    ∀ (names : List (List Nat)) (es : List (List Nat)),
      ((names.map (lookupValidation univ)).foldl validationExtend
          (.invalid es)) =
        Validation.invalid (es ++ missingNames univ names) := by
  intro names
  induction names with
  | nil => intro es; simp [missingNames]
  | cons n rest ih =>
    intro es
    cases hl : alistLookup n univ with
    | some r =>
      simp only [List.map_cons, List.foldl_cons, lookupValidation, hl,
        validationExtend, missingNames, List.filter_cons, Option.isNone_some,
        Bool.false_eq_true, if_false, decide_False]
      simpa [missingNames] using ih es
    | none =>
      simp only [List.map_cons, List.foldl_cons, lookupValidation, hl,
        validationExtend]
      rw [ih (es ++ [n])]
      simp [missingNames, List.filter_cons, hl]

theorem collect_fold_miss (univ : Universe) :
    ∀ (names : List (List Nat)) (ts : List StrRelation),
      missingNames univ names ≠ [] →
      ((names.map (lookupValidation univ)).foldl validationExtend
          (.valid ts)) =
        Validation.invalid (missingNames univ names) := by
  intro names
  induction names with
  | nil => intro ts h; simp [missingNames] at h
  | cons n rest ih =>
    intro ts h
    cases hl : alistLookup n univ with
    | some r =>
      have hmiss : missingNames univ (n :: rest) = missingNames univ rest := by
        simp [missingNames, List.filter_cons, hl]
      rw [hmiss] at h ⊢
      simp only [List.map_cons, List.foldl_cons, lookupValidation, hl,
        validationExtend]
      exact ih (ts ++ [r]) h
    | none =>
      simp only [List.map_cons, List.foldl_cons, lookupValidation, hl,
        validationExtend]
      rw [collect_fold_invalid univ rest [n]]
      simp [missingNames, List.filter_cons, hl]

theorem collect_fold_found (univ : Universe) :
    ∀ (names : List (List Nat)) (ts : List StrRelation),
      missingNames univ names = [] →
      ∃ rels,
        ((names.map (lookupValidation univ)).foldl validationExtend
            (.valid ts)) = Validation.valid rels ∧
        rels.length = ts.length + names.length := by
  intro names
  induction names with
  | nil => intro ts _; exact ⟨ts, rfl, by simp⟩
  | cons n rest ih =>
    intro ts h
    cases hl : alistLookup n univ with
    | some r =>
      have hmiss : missingNames univ rest = [] := by
        simpa [missingNames, List.filter_cons, hl] using h
      obtain ⟨rels, h1, h2⟩ := ih (ts ++ [r]) hmiss
      refine ⟨rels, ?_, ?_⟩
      · simp only [List.map_cons, List.foldl_cons, lookupValidation, hl,
          validationExtend]
        exact h1
      · simp at h2; simp [h2]; omega
    | none =>
      exfalso
      simp [missingNames, List.filter_cons, hl] at h

/-! ### Claim C6 -/

/-- Claim C6: if any requested relation name is absent from the catalogue,
`Pipeline::build` fails with a single aggregated error listing every
missing name in request order; in particular, joining `p`, `r`, `s` over a
file containing only relation `p` produces exactly the error
"unknown relations: r, and s" — for every join engine, since the pipeline
error is raised before any join step can run. -/
theorem C6_unknown_relations_aggregated :
    (∀ (buf : Buf) (univ : Universe) (names : List (List Nat)),
      missingNames univ names ≠ [] →
      Pipeline.build buf univ names =
        .error (unknownMsg (missingNames univ names))) ∧
    (∀ step, joinMainWith step true false pOnlyFile
        [ascii "p", ascii "r", ascii "s"] =
      .error (ascii "unknown relations: r, and s")) := by
  constructor
  · intro buf univ names h
    simp only [Pipeline.build, collectValidation]
    rw [collect_fold_miss univ names [] h]
  · intro step
    rfl

/-- Witness for C6 at a concrete missing-name request. -/
theorem C6_witness :
    Pipeline.build [] [] [ascii "r", ascii "s"] =
      .error (unknownMsg [ascii "r", ascii "s"]) := by
  have := (C6_unknown_relations_aggregated).1 [] []
    [ascii "r", ascii "s"] (by decide)
  simpa using this

/-! ### Claim C7 -/

/-- Claim C7 (counterexample): a request for the single relation `p` over a
file that does not contain `p` fails with "unknown relation: p", not with
"no join to be performed" — the name check precedes the length check. -/
theorem C7_counterexample :
    joinMain true false false tOnlyFile [ascii "p"] =
      .error (ascii "unknown relation: p") ∧
    ascii "unknown relation: p" ≠ ascii "no join to be performed" := by
  refine ⟨by decide, by decide⟩

/-- Claim C7 (amended): a join request with exactly one mode selected,
every requested name present in the catalogue, and fewer than two relations
fails with "no join to be performed"; a request with neither mode fails
with "Neither --hash nor --sort specified." and one with both modes with
"Modes --hash and --sort are mutually exclusive.".  All three errors are
produced for every engine `step`, i.e. without executing any join step. -/
theorem C7_underspecified_join :
    (∀ step (hf sf : Bool) (buf : Buf) (univ : Universe)
        (names : List (List Nat)),
      hf ≠ sf →
      buildUniverse buf names = some univ →
      missingNames univ names = [] →
      names.length < 2 →
      joinMainWith step hf sf buf names =
        .error (ascii "no join to be performed")) ∧
    (∀ step (buf : Buf) (univ : Universe) (names : List (List Nat)),
      buildUniverse buf names = some univ →
      joinMainWith step false false buf names =
        .error (ascii "Neither --hash nor --sort specified.")) ∧
    (∀ step (buf : Buf) (univ : Universe) (names : List (List Nat)),
      buildUniverse buf names = some univ →
      joinMainWith step true true buf names =
        .error (ascii "Modes --hash and --sort are mutually exclusive.")) := by
  have hbuild : ∀ (buf : Buf) (univ : Universe) (names : List (List Nat)),
      missingNames univ names = [] → names.length < 2 →
      Pipeline.build buf univ names =
        .error (ascii "no join to be performed") := by
    intro buf univ names hmiss hlen
    simp only [Pipeline.build, collectValidation]
    obtain ⟨rels, h1, h2⟩ := collect_fold_found univ names [] hmiss
    rw [h1]
    have hr2 : rels.length < 2 := by simp at h2; omega
    simp only [if_pos hr2]
  refine ⟨?_, ?_, ?_⟩
  · intro step hf sf buf univ names hne hu hmiss hlen
    cases hf <;> cases sf
    · exact absurd rfl hne
    · simp only [joinMainWith, hu, ok_bind]
      rw [if_neg (by simp), if_neg (by simp), hbuild buf univ names hmiss hlen]
      rfl
    · simp only [joinMainWith, hu, ok_bind]
      rw [if_neg (by simp), if_neg (by simp), hbuild buf univ names hmiss hlen]
      rfl
    · exact absurd rfl hne
  · intro step buf univ names hu
    simp only [joinMainWith, hu, ok_bind]
    rw [if_pos (by simp)]
  · intro step buf univ names hu
    simp only [joinMainWith, hu, ok_bind]
    rw [if_neg (by simp), if_pos (by simp)]

/-- Witness for C7 at a concrete single-relation request with valid mode
flags and a known name. -/
theorem C7_witness :
    joinMainWith (fun _ _ _ _ _ => .ok []) true false pOnlyFile
      [ascii "p"] = .error (ascii "no join to be performed") :=
  (C7_underspecified_join).1 (fun _ _ _ _ _ => .ok []) true false pOnlyFile
    [(ascii "p", [(⟨0, 1⟩, ⟨4, 1⟩)])] [ascii "p"]
    (by decide) (by decide) (by decide) (by decide)

/-! ### Claim C9: dictionary soundness -/

theorem alistLookup_append [DecidableEq K] (k : K) (l1 l2 : List (K × A)) :
    alistLookup k (l1 ++ l2) =
      match alistLookup k l1 with
      | some v => some v
      | none => alistLookup k l2 := by
  induction l1 with
  | nil => simp [alistLookup]
  | cons e t ih =>
    by_cases he : e.1 = k
    · simp [alistLookup, he]
    · simpa [alistLookup, he] using ih

/-- Dictionary lookups after the `mapRel` fold, relative to an arbitrary
accumulator: a binding present afterwards was either present before, or it
was created by the first pair of the remaining relation whose object
carries the looked-up contents, with the Field of that pair's subject. -/
theorem mapRel_fold_lookup (buf : Buf) :
    ∀ (rel : StrRelation) (acc : List (Str × Nat) × Dict) (o : List Nat)
      (f : Nat),
      alistLookup o (rel.foldl (mapRelStep buf) acc).2 = some f →
      alistLookup o acc.2 = some f ∨
      (alistLookup o acc.2 = none ∧
        ∃ p, rel.find? (fun q => q.2.bytes buf == o) = some p ∧
          extract_field p.1 = f) := by
  intro rel
  induction rel with
  | nil => intro acc o f h; exact Or.inl h
  | cons p rest ih =>
    intro acc o f h
    rw [List.foldl_cons] at h
    rcases ih (mapRelStep buf acc p) o f h with h1 | ⟨h2, q, hfind, hoff⟩
    · -- the binding is already present after processing `p`
      cases hoc : alistLookup (p.2.bytes buf) acc.2 with
      | some v =>
        -- the dictionary was unchanged by `p`
        simp only [mapRelStep, hoc] at h1
        exact Or.inl h1
      | none =>
        -- `p` extended the dictionary
        simp only [mapRelStep, hoc] at h1
        rw [alistLookup_append] at h1
        cases hacc : alistLookup o acc.2 with
        | some w =>
          rw [hacc] at h1
          exact Or.inl (by simpa using h1)
        | none =>
          rw [hacc] at h1
          simp only [alistLookup] at h1
          by_cases heq : p.2.bytes buf = o
          · rw [if_pos heq] at h1
            simp only [Option.some.injEq] at h1
            refine Or.inr ⟨rfl, p, ?_, h1⟩
            exact List.find?_cons_of_pos _ (by simp [heq])
          · rw [if_neg heq] at h1
            simp [alistLookup] at h1
    · -- the binding was created inside `rest`
      have key : alistLookup o acc.2 = none ∧ p.2.bytes buf ≠ o := by
        cases hoc : alistLookup (p.2.bytes buf) acc.2 with
        | some v =>
          simp only [mapRelStep, hoc] at h2
          refine ⟨h2, fun heq => ?_⟩
          rw [heq, h2] at hoc
          exact Option.noConfusion hoc
        | none =>
          simp only [mapRelStep, hoc] at h2
          rw [alistLookup_append] at h2
          cases hacc : alistLookup o acc.2 with
          | some w => rw [hacc] at h2; simp at h2
          | none =>
            rw [hacc] at h2
            simp only [alistLookup] at h2
            refine ⟨rfl, fun heq => ?_⟩
            rw [if_pos heq] at h2
            exact Option.noConfusion h2
      obtain ⟨hacc, hne⟩ := key
      refine Or.inr ⟨hacc, q, ?_, hoff⟩
      rw [List.find?_cons_of_neg _ (by simp [hne])]
      exact hfind

/-- Claim C9: dictionary soundness.  If the dictionary built by the
pipeline for a relation maps object contents `o` to Field `f`, then the
relation contains a pair `(s, o')` whose object contents equal `o` and with
`extract_field s = f`; the representative is the subject of the first such
pair. -/
theorem C9_dictionary_sound (buf : Buf) (rel : StrRelation) (o : List Nat)
    (f : Nat) (h : alistLookup o (mapRel buf rel).2 = some f) :
    ∃ p, p ∈ rel ∧ p.2.bytes buf = o ∧ extract_field p.1 = f ∧
      rel.find? (fun q => q.2.bytes buf == o) = some p := by
  rcases mapRel_fold_lookup buf rel ([], []) o f h with h1 | ⟨_, p, hfind, hoff⟩
  · simp [alistLookup] at h1
  · refine ⟨p, List.mem_of_find?_eq_some hfind, ?_, hoff, hfind⟩
    have := List.find?_some hfind
    simpa using this

/-! ### Line-splitting lemmas, for claims C4 and C5 -/

theorem memchr_getElem? {c : Nat} {l : List Nat} {i : Nat}
    (h : memchr c l = some i) : l[i]? = some c := by
  induction l generalizing i with
  | nil => simp [memchr] at h
  | cons x xs ih =>
    simp only [memchr] at h
    split at h
    · cases h; simpa
    · cases hx : memchr c xs with
      | none => rw [hx] at h; simp at h
      | some j =>
        rw [hx] at h
        simp only [Option.map_some'] at h
        cases h
        simpa using ih hx

theorem getLast?_take_succ :
    ∀ (l : List Nat) (i : Nat), i < l.length →
      (l.take (i + 1)).getLast? = l[i]? := by
  intro l
  induction l with
  | nil => intro i h; simp at h
  | cons x xs ih =>
    intro i h
    cases i with
    | zero => simp
    | succ j =>
      have hj : j < xs.length := by simp at h; omega
      have hne : xs.take (j + 1) ≠ [] := by
        simp only [ne_eq, List.take_eq_nil_iff]
        rintro (h1 | h2)
        · omega
        · rw [h2] at hj; simp at hj
      rw [List.take_succ_cons]
      cases htake : xs.take (j + 1) with
      | nil => exact absurd htake hne
      | cons y ys =>
        rw [List.getLast?_cons_cons]
        rw [← htake, ih j hj]
        simp

theorem getLast?_drop_of_ne_nil :
    ∀ (l : List Nat) (n : Nat), l.drop n ≠ [] →
      (l.drop n).getLast? = l.getLast? := by
  intro l
  induction l with
  | nil => intro n h; simp at h
  | cons x xs ih =>
    intro n h
    cases n with
    | zero => rfl
    | succ m =>
      rw [List.drop_succ_cons] at h ⊢
      have hxs : xs ≠ [] := by
        intro hx; rw [hx] at h; simp at h
      cases hc : xs with
      | nil => exact absurd hc hxs
      | cons y ys =>
        rw [← hc, ih m h, hc, List.getLast?_cons_cons]

/-- Every line `line_split` emits is nonempty and ends with the newline
byte. -/
theorem line_split_ends_nl :
    ∀ (fuel : Nat) (buf : Buf) (off : Nat), buf.length ≤ fuel →
      ∀ ln ∈ line_split off buf,
        ln.data ≠ [] ∧ ln.data.getLast? = some nlByte := by
  intro fuel
  induction fuel with
  | zero =>
    intro buf off hlen ln hln
    have : buf = [] := List.length_eq_zero.mp (Nat.le_zero.mp hlen)
    subst this
    simp [line_split, line_split_go] at hln
  | succ f ih =>
    intro buf off hlen ln hln
    rw [line_split_eq] at hln
    cases hm : memchr nlByte buf with
    | none => rw [hm] at hln; simp at hln
    | some i =>
      rw [hm] at hln
      have hi := memchr_lt_length hm
      rcases List.mem_cons.mp hln with rfl | htail
      · constructor
        · simp only [ne_eq, List.take_eq_nil_iff]
          rintro (h1 | h2)
          · omega
          · rw [h2] at hi; simp at hi
        · show (buf.take (i + 1)).getLast? = some nlByte
          rw [getLast?_take_succ buf i hi]
          exact memchr_getElem? hm
      · have hdl : (buf.drop (i + 1)).length ≤ f := by
          simp only [List.length_drop]; omega
        exact ih (buf.drop (i + 1)) (off + i + 1) hdl ln htail

/-- When the buffer ends with a newline, the emitted lines concatenate to
the whole buffer (every byte in exactly one line). -/
theorem line_split_join :
    ∀ (fuel : Nat) (buf : Buf) (off : Nat), buf.length ≤ fuel →
      buf.getLast? = some nlByte →
      ((line_split off buf).map InputLine.data).flatten = buf := by
  intro fuel
  induction fuel with
  | zero =>
    intro buf off hlen hlast
    have : buf = [] := List.length_eq_zero.mp (Nat.le_zero.mp hlen)
    subst this
    simp at hlast
  | succ f ih =>
    intro buf off hlen hlast
    have hmem : nlByte ∈ buf := List.mem_of_getLast?_eq_some hlast
    have hsome := memchr_isSome_of_mem hmem
    cases hm : memchr nlByte buf with
    | none => rw [hm] at hsome; simp at hsome
    | some i =>
      have hi := memchr_lt_length hm
      rw [line_split_eq, hm]
      dsimp only
      simp only [List.map_cons, List.flatten_cons]
      cases hdrop : buf.drop (i + 1) with
      | nil =>
        have hle : buf.length ≤ i + 1 := by
          have := congrArg List.length hdrop
          simp only [List.length_drop] at this
          simp at this
          omega
        simp [line_split, line_split_go, List.take_of_length_le hle]
      | cons d ds =>
        have hne : buf.drop (i + 1) ≠ [] := by rw [hdrop]; simp
        have hlast2 : (buf.drop (i + 1)).getLast? = some nlByte := by
          rw [getLast?_drop_of_ne_nil buf (i + 1) hne]; exact hlast
        have hdl : (buf.drop (i + 1)).length ≤ f := by
          simp only [List.length_drop]; omega
        rw [← hdrop, ih (buf.drop (i + 1)) (off + i + 1) hdl hlast2]
        exact List.take_append_drop (i + 1) buf

/-- Claim C5 (amended): every slice emitted by line iteration ends exactly
one byte past a newline — including the last one; a final line lacking a
trailing newline at end-of-buffer is therefore never emitted (and never
parsed). -/
theorem C5_amended_every_line_ends_at_newline (chunk : Buf) (offset : Nat)
    (skip_first : Bool) (ln : InputLine)
    (h : ln ∈ mk_chunk_iter chunk offset skip_first) :
    ln.data ≠ [] ∧ ln.data.getLast? = some nlByte := by
  have hmem : ln ∈ line_split offset chunk := by
    unfold mk_chunk_iter at h
    cases skip_first with
    | false => exact h
    | true => exact List.mem_of_mem_drop h
  exact line_split_ends_nl chunk.length chunk offset le_rfl ln hmem

/-- Witness for C5 (amended) on a two-line buffer. -/
theorem C5_amended_witness :
    (⟨0, ascii "ab\n"⟩ : InputLine).data ≠ [] ∧
    (⟨0, ascii "ab\n"⟩ : InputLine).data.getLast? = some nlByte :=
  C5_amended_every_line_ends_at_newline (ascii "ab\ncd\n") 0 false
    ⟨0, ascii "ab\n"⟩ (by decide)

/-- Claim C4 (amended): on the single-iterator path (chunk count < 3), and
for a buffer ending in a newline, the chunker's partition property holds:
the concatenation of every emitted line reproduces the buffer
byte-for-byte, so each byte appears in exactly one line.  (With ≥ 3 chunks
the property fails in general, see the counterexample.) -/
theorem C4_amended_single_iterator_partition (page_size_raw : Nat)
    (buf : Buf) (count size_hint : Nat) (hc : count < 3)
    (hlast : buf.getLast? = some nlByte) :
    ((divide_chunks page_size_raw buf count size_hint).flatten.map
        InputLine.data).flatten = buf := by
  unfold divide_chunks
  rw [if_pos hc]
  simp only [List.flatten_cons, List.flatten_nil, List.append_nil,
    mk_chunk_iter, if_neg (by simp : ¬ (false = true))]
  exact line_split_join buf.length buf 0 le_rfl hlast

/-- Witness for C4 (amended) on a concrete newline-terminated buffer. -/
theorem C4_amended_witness :
    ((divide_chunks 4096 (ascii "ab\ncd\n") 1 0).flatten.map
        InputLine.data).flatten = ascii "ab\ncd\n" :=
  C4_amended_single_iterator_partition 4096 (ascii "ab\ncd\n") 1 0
    (by decide) (by decide)

/-! ### Engine lemmas, for claim C8 -/

/-- Claim C8 (counterexample): on an input whose relation `q` resolves to
zero rows, the improved hash join fails its debug assertion that the
range's low end is valid, while the naive hash join and both sort-merge
variants complete with an empty join-table. -/
theorem C8_counterexample :
    joinMain true false true noMatchFile [ascii "p", ascii "q"] =
      .error (ascii "assertion failed: field_range.0 != Field::INVALID") ∧
    joinMain true false false noMatchFile [ascii "p", ascii "q"] = .ok [] ∧
    joinMain false true false noMatchFile [ascii "p", ascii "q"] = .ok [] ∧
    joinMain false true true noMatchFile [ascii "p", ascii "q"] = .ok [] := by
  refine ⟨by decide, by decide, by decide, by decide⟩

theorem getD_of_all_nil {A : Type} :
    ∀ (L : List (List A)) (n : Nat), (∀ t ∈ L, t = []) → L.getD n [] = [] := by
  intro L
  induction L with
  | nil => intro n _; simp
  | cons x xs ih =>
    intro n h
    cases n with
    | zero => exact h x (by simp)
    | succ m =>
      simpa using ih m (fun t ht => h t (by simp [ht]))

/-- A fold in the `Except` monad whose step never fails never fails. -/
theorem foldlM_ok_of_step_ok {E A B : Type} (f : A → B → Except E A)
    (hf : ∀ a b, ∃ a', f a b = .ok a') :
    ∀ (l : List B) (a : A), ∃ a', List.foldlM f a l = .ok a' := by
  intro l
  induction l with
  | nil => intro a; exact ⟨a, rfl⟩
  | cons b bs ih =>
    intro a
    obtain ⟨a', ha⟩ := hf a b
    rw [List.foldlM_cons, ha, ok_bind]
    exact ih a'

/-- A fold in the `Except` monad with a fixed point of the step stays
there. -/
theorem foldlM_fixpoint {E A B : Type} (f : A → B → Except E A) (a : A)
    (hf : ∀ b, f a b = .ok a) :
    ∀ (l : List B), List.foldlM f a l = .ok a := by
  intro l
  induction l with
  | nil => rfl
  | cons b bs ih => rw [List.foldlM_cons, hf b, ok_bind]; exact ih

theorem partition_point_cons_zero_ne (e : Nat) (rs : List (Nat × Nat))
    (s : Nat) :
    partition_point (fun r => decide (r.1 ≤ s)) ((0, e) :: rs) ≠ 0 := by
  simp [partition_point, List.takeWhile_cons]

/-- `scan_hashed` never fails when the first field-range starts at 0 (both
`simple_hash` and `partitioned_hash` guarantee this). -/
theorem scan_hashed_ok (e : Nat) (rs : List (Nat × Nat))
    (tables : List HashTable) (index : Nat) (relation : Relation) :
    ∃ t, scan_hashed ((0, e) :: rs) tables index relation = .ok t := by
  unfold scan_hashed
  refine foldlM_ok_of_step_ok _ ?_ relation []
  intro out p
  exact ⟨_, if_neg (partition_point_cons_zero_ne e rs p.1)⟩

/-- `scan_hashed` over empty hash tables produces the empty join-table. -/
theorem scan_hashed_all_empty (e : Nat) (rs : List (Nat × Nat))
    (tables : List HashTable) (index : Nat) (relation : Relation)
    (hT : ∀ t ∈ tables, t = []) :
    scan_hashed ((0, e) :: rs) tables index relation = .ok [] := by
  unfold scan_hashed
  refine foldlM_fixpoint _ [] ?_ relation
  intro p
  rw [if_neg (partition_point_cons_zero_ne e rs p.1)]
  have hmt : tables.getD
      (partition_point (fun r => decide (r.1 ≤ p.1)) ((0, e) :: rs) - 1)
      [] = [] := getD_of_all_nil tables _ hT
  rw [hmt]
  simp [alistLookup]

/-- The first bucket range of `partitioned_hash` starts at field offset 0
(the range list is `[make_range 0 (lo + per_bucket), …]`). -/
theorem bucketRanges_head (lo hi : Nat) :
    ∃ e rs, bucketRanges lo hi = (0, e) :: rs := by
  have gen : ∀ (l : List Nat) (g : List (Nat × Nat) → Nat × Nat)
      (x : Nat × Nat) (acc : List (Nat × Nat)),
      ∃ tl, List.foldl (fun a _ => a ++ [g a]) (x :: acc) l = x :: tl := by
    intro l
    induction l with
    | nil => intro g x acc; exact ⟨acc, rfl⟩
    | cons b bs ih =>
      intro g x acc
      rw [List.foldl_cons]
      have heq : (x :: acc) ++ [g (x :: acc)] = x :: (acc ++ [g (x :: acc)]) := by
        simp
      rw [heq]
      exact ih g x (acc ++ [g (x :: acc)])
  obtain ⟨tl, htl⟩ := gen (List.range 7)
    (fun a => Field.make_range (a.getLastD (0, 0)).2
      (max ((hi + 1 - lo) / 8) 128))
    (Field.make_range 0 (lo + max ((hi + 1 - lo) / 8) 128)) []
  exact ⟨_, tl, htl⟩

/-- The naive hash join step is total: it always returns a table. -/
theorem hash_naive_step_ok (jc : Nat) (jt : List Row) (index : Nat)
    (relation : Relation) (field_range : Nat × Nat) :
    ∃ t, hash_join_step false jc jt index relation field_range = .ok t := by
  by_cases h0 : index = 0
  · exact ⟨jt ++ relation.map (fun p => seedRow jc p.1 p.2),
      by simp [hash_join_step, h0]⟩
  · obtain ⟨t, ht⟩ := scan_hashed_ok (Field.advance 0 USIZE_MAX)
      (List.replicate 7 (Field.INVALID, Field.INVALID))
      ((jt.reverse.foldl (fun t row => hashInsert t (row.getD index 0) row)
          []) :: List.replicate 7 []) index relation
    refine ⟨t, ?_⟩
    simp only [hash_join_step, if_neg h0]
    exact ht

/-- The improved hash join step is total whenever the supplied field range
is populated (`lo ≤ hi` and `lo` valid). -/
theorem hash_improved_step_ok (jc : Nat) (jt : List Row) (index : Nat)
    (relation : Relation) (lo hi : Nat) (h1 : lo ≤ hi)
    (h2 : lo ≠ Field.INVALID) :
    ∃ t, hash_join_step true jc jt index relation (lo, hi) = .ok t := by
  by_cases h0 : index = 0
  · exact ⟨jt ++ relation.map (fun p => seedRow jc p.1 p.2),
      by simp [hash_join_step, h0]⟩
  · obtain ⟨e, rs, hbr⟩ := bucketRanges_head lo hi
    obtain ⟨t, ht⟩ := scan_hashed_ok e rs
      ((bucketRanges lo hi).map
        (fun r => jt.foldl
          (fun t row =>
            let k := row.getD index 0
            if r.1 ≤ k ∧ k < r.2 then hashInsert t k row else t)
          [])) index relation
    refine ⟨t, ?_⟩
    simp only [hash_join_step, if_neg h0, partitioned_hash,
      if_neg (not_not_intro h1), if_neg h2]
    rw [← hbr] at ht
    exact ht

/-- An empty join-table stays empty through the naive hash step. -/
theorem hash_naive_step_empty (jc : Nat) (index : Nat)
    (relation : Relation) (field_range : Nat × Nat) (h0 : index ≠ 0) :
    hash_join_step false jc [] index relation field_range = .ok [] := by
  have := scan_hashed_all_empty (Field.advance 0 USIZE_MAX)
    (List.replicate 7 (Field.INVALID, Field.INVALID))
    ([] :: List.replicate 7 ([] : HashTable)) index relation
    (by
      intro t ht
      rcases List.mem_cons.mp ht with h | h
      · exact h
      · exact List.eq_of_mem_replicate h)
  simp only [hash_join_step, if_neg h0]
  exact this

/-- An empty join-table stays empty through the improved hash step when
the range is populated. -/
theorem hash_improved_step_empty (jc : Nat) (index : Nat)
    (relation : Relation) (lo hi : Nat) (h0 : index ≠ 0) (h1 : lo ≤ hi)
    (h2 : lo ≠ Field.INVALID) :
    hash_join_step true jc [] index relation (lo, hi) = .ok [] := by
  obtain ⟨e, rs, hbr⟩ := bucketRanges_head lo hi
  have := scan_hashed_all_empty e rs
    ((bucketRanges lo hi).map (fun r =>
      ([] : List Row).foldl
        (fun t row =>
          let k := row.getD index 0
          if r.1 ≤ k ∧ k < r.2 then hashInsert t k row else t)
        [])) index relation
    (by
      intro t ht
      obtain ⟨r, _, hr⟩ := List.mem_map.mp ht
      exact hr.symm)
  simp only [hash_join_step, if_neg h0, partitioned_hash,
    if_neg (not_not_intro h1), if_neg h2]
  rw [← hbr] at this
  exact this

/-- Concatenating the chunks recovers the list. -/
theorem chunksOf_flatten {A : Type} (n : Nat) (hn : n ≠ 0) :
    ∀ (l : List A), (chunksOf n l).flatten = l := by
  have gen : ∀ (fuel : Nat) (l : List A), l.length ≤ fuel →
      (chunksOf n l).flatten = l := by
    intro fuel
    induction fuel with
    | zero =>
      intro l hl
      have : l = [] := List.length_eq_zero.mp (Nat.le_zero.mp hl)
      subst this; rfl
    | succ f ih =>
      intro l hl
      cases l with
      | nil => rfl
      | cons x xs =>
        rw [chunksOf_eq]
        simp only [if_neg hn, List.flatten_cons]
        simp only [List.length_cons] at hl
        have hdl : ((x :: xs).drop n).length ≤ f := by
          simp only [List.length_drop, List.length_cons]
          omega
        rw [ih _ hdl]
        exact List.take_append_drop n (x :: xs)
  exact fun l => gen l.length l le_rfl

/-- A merge chunk against an empty right-hand side aborts immediately:
the rows are untouched, every absolute index is marked for deletion, and
no duplicate is emitted. -/
theorem mergeChunk_nil_rel (index chunk_index : Nat) (chunk : List Row) :
    mergeChunk [] index chunk_index chunk =
      (chunk, List.range' (chunk_index * 1024) chunk.length, []) := rfl

/-- Merging all chunks of a table against an empty right-hand side: the
rows come back unchanged, the deletion indices are exactly all absolute
row indices, and no duplicates are emitted. -/
theorem mergeChunks_nil_rel (index : Nat) :
    ∀ (fuel : Nat) (l : List Row) (cidx : Nat), l.length ≤ fuel →
      ((mergeChunks [] index cidx (chunksOf 1024 l)).map
          (fun r => r.1)).flatten = l ∧
      ((mergeChunks [] index cidx (chunksOf 1024 l)).map
          (fun r => r.2.1)).flatten = List.range' (cidx * 1024) l.length ∧
      ((mergeChunks [] index cidx (chunksOf 1024 l)).map
          (fun r => r.2.2)).flatten = [] := by
  intro fuel
  induction fuel with
  | zero =>
    intro l cidx hl
    have : l = [] := List.length_eq_zero.mp (Nat.le_zero.mp hl)
    subst this
    exact ⟨rfl, rfl, rfl⟩
  | succ f ih =>
    intro l cidx hl
    cases l with
    | nil => exact ⟨rfl, rfl, rfl⟩
    | cons x xs =>
      rw [chunksOf_eq]
      simp only [if_neg (by decide : ¬ (1024 = 0))]
      simp only [mergeChunks, mergeChunk_nil_rel, List.map_cons,
        List.flatten_cons]
      simp only [List.length_cons] at hl
      have hdl : ((x :: xs).drop 1024).length ≤ f := by
        simp only [List.length_drop, List.length_cons]
        omega
      obtain ⟨h1, h2, h3⟩ := ih ((x :: xs).drop 1024) (cidx + 1) hdl
      refine ⟨?_, ?_, ?_⟩
      · rw [h1]; exact List.take_append_drop 1024 (x :: xs)
      · rw [h2]
        by_cases hbig : (x :: xs).length ≤ 1024
        · have hdrop0 : ((x :: xs).drop 1024).length = 0 := by
            simp only [List.length_drop, List.length_cons]
            simp only [List.length_cons] at hbig
            omega
          rw [hdrop0]
          simp only [List.range'_zero, List.append_nil]
          congr 1
          simp only [List.length_take, List.length_cons]
          simp only [List.length_cons] at hbig
          omega
        · simp only [List.length_cons] at hbig
          have htake : ((x :: xs).take 1024).length = 1024 := by
            simp only [List.length_take, List.length_cons]
            omega
          rw [htake]
          have hstep : (cidx + 1) * 1024 = cidx * 1024 + 1024 := by ring
          rw [hstep, List.range'_append_1]
          congr 1
          simp only [List.length_drop, List.length_cons]
          omega
      · rw [h3]; rfl

theorem take_set_ge {A : Type} :
    ∀ (l : List A) (i n : Nat) (x : A), n ≤ i →
      (l.set i x).take n = l.take n := by
  intro l
  induction l with
  | nil => intro i n x _; simp
  | cons a t ih =>
    intro i n x hni
    cases n with
    | zero => simp
    | succ m =>
      cases i with
      | zero => omega
      | succ j =>
        simp only [List.set_cons_succ, List.take_succ_cons]
        rw [ih j m x (by omega)]

/-- Setting the last element then dropping it is just dropping it. -/
theorem set_last_dropLast {A : Type} (l : List A) (x : A) :
    (l.set (l.length - 1) x).dropLast = l.dropLast := by
  rw [List.dropLast_eq_take, List.dropLast_eq_take, List.length_set]
  exact take_set_ge l (l.length - 1) (l.length - 1) x le_rfl

/-- Applying `swap_remove` at every index in descending order empties the
table. -/
theorem swapRemove_range_all :
    ∀ (fuel : Nat) (l : List Row), l.length ≤ fuel →
      (List.range' 0 l.length).reverse.foldl swapRemove l = [] := by
  intro fuel
  induction fuel with
  | zero =>
    intro l hl
    have : l = [] := List.length_eq_zero.mp (Nat.le_zero.mp hl)
    subst this; rfl
  | succ f ih =>
    intro l hl
    cases hlen : l.length with
    | zero =>
      have : l = [] := List.length_eq_zero.mp hlen
      subst this; rfl
    | succ m =>
      have hone : List.range' m 1 = [m] := rfl
      have hconcat : List.range' 0 (m + 1) = List.range' 0 m ++ [m] := by
        have h := List.range'_append_1 0 m 1
        simp only [Nat.zero_add] at h
        rw [hone] at h
        rw [Nat.add_comm 1 m] at h
        exact h.symm
      rw [hconcat, List.reverse_append]
      simp only [List.reverse_cons, List.reverse_nil, List.nil_append,
        List.singleton_append, List.foldl_cons]
      have hswap : swapRemove l m = l.dropLast := by
        unfold swapRemove
        have hm : m = l.length - 1 := by omega
        rw [hm]
        exact set_last_dropLast l (l.getLastD [])
      rw [hswap]
      have hdll : l.dropLast.length = m := by
        simp [List.length_dropLast, hlen]
      have hind := ih l.dropLast (by omega)
      rw [hdll] at hind
      exact hind

/-- An empty right-hand relation empties the sort-merge step (every row of
every chunk is marked for deletion and swap-removed). -/
theorem sort_step_empty_rel (improved : Bool) (jc : Nat) (jt : List Row)
    (index : Nat) (field_range : Nat × Nat) (h0 : index ≠ 0) :
    sort_merge_join_step improved jc jt index [] field_range = .ok [] := by
  simp only [sort_merge_join_step, if_neg h0]
  have hrel : sortPairs [] = [] := rfl
  rw [hrel]
  obtain ⟨h1, h2, h3⟩ := mergeChunks_nil_rel index
    (sortByKey (fun row => row.getD index 0) jt).length
    (sortByKey (fun row => row.getD index 0) jt) 0 le_rfl
  simp only [Nat.zero_mul] at h2
  rw [h1, h2, h3]
  rw [swapRemove_range_all
    (sortByKey (fun row => row.getD index 0) jt).length _ le_rfl]
  rfl

/-- The sort-merge step is total: it always returns a table. -/
theorem sort_step_ok (improved : Bool) (jc : Nat) (jt : List Row)
    (index : Nat) (relation : Relation) (field_range : Nat × Nat) :
    ∃ t, sort_merge_join_step improved jc jt index relation field_range =
      .ok t := by
  by_cases h0 : index = 0
  · exact ⟨jt ++ relation.map (fun p => seedRow jc p.1 p.2),
      by simp [sort_merge_join_step, h0]⟩
  · simp only [sort_merge_join_step, if_neg h0]
    exact ⟨_, rfl⟩

/-- An empty join-table stays empty through the sort-merge step. -/
theorem sort_step_empty (improved : Bool) (jc : Nat) (index : Nat)
    (relation : Relation) (field_range : Nat × Nat) (h0 : index ≠ 0) :
    sort_merge_join_step improved jc [] index relation field_range =
      .ok [] := by
  simp only [sort_merge_join_step, if_neg h0]
  rfl

/-- An empty right-hand relation empties the naive hash step. -/
theorem hash_naive_step_empty_rel (jc : Nat) (jt : List Row) (index : Nat)
    (field_range : Nat × Nat) (h0 : index ≠ 0) :
    hash_join_step false jc jt index [] field_range = .ok [] := by
  simp only [hash_join_step, if_neg h0, simple_hash]
  rfl

/-- Once the join-table is empty, the rest of a naive hash run completes
with an empty table. -/
theorem runEngineGo_hash_naive_empty (jc : Nat) :
    ∀ (rest : List (Relation × (Nat × Nat))) (i : Nat), i ≠ 0 →
      runEngineGo (hash_join_step false jc) i rest [] = .ok [] := by
  intro rest
  induction rest with
  | nil => intro i _; rfl
  | cons p ps ih =>
    intro i hi
    show (hash_join_step false jc [] i p.1 p.2) >>= _ = _
    rw [hash_naive_step_empty jc i p.1 p.2 hi, ok_bind]
    exact ih (i + 1) (by omega)

/-- Once the join-table is empty, the rest of a sort-merge run (either
variant) completes with an empty table. -/
theorem runEngineGo_sort_empty (improved : Bool) (jc : Nat) :
    ∀ (rest : List (Relation × (Nat × Nat))) (i : Nat), i ≠ 0 →
      runEngineGo (sort_merge_join_step improved jc) i rest [] = .ok [] := by
  intro rest
  induction rest with
  | nil => intro i _; rfl
  | cons p ps ih =>
    intro i hi
    show (sort_merge_join_step improved jc [] i p.1 p.2) >>= _ = _
    rw [sort_step_empty improved jc i p.1 p.2 hi, ok_bind]
    exact ih (i + 1) (by omega)

/-- Once the join-table is empty, the rest of an improved hash run
completes with an empty table, provided every remaining range is
populated. -/
theorem runEngineGo_hash_improved_empty (jc : Nat) :
    ∀ (rest : List (Relation × (Nat × Nat))) (i : Nat), i ≠ 0 →
      (∀ p ∈ rest, p.2.1 ≤ p.2.2 ∧ p.2.1 ≠ Field.INVALID) →
      runEngineGo (hash_join_step true jc) i rest [] = .ok [] := by
  intro rest
  induction rest with
  | nil => intro i _ _; rfl
  | cons p ps ih =>
    intro i hi hr
    obtain ⟨h1, h2⟩ := hr p (by simp)
    show (hash_join_step true jc [] i p.1 p.2) >>= _ = _
    have : hash_join_step true jc [] i p.1 p.2 = .ok [] := by
      have := hash_improved_step_empty jc i p.1 p.2.1 p.2.2 hi h1 h2
      simpa using this
    rw [this, ok_bind]
    exact ih (i + 1) (by omega) (fun q hq => hr q (by simp [hq]))

/-- Claim C8 (amended): the naive hash join and both sort-merge variants
are total, and the improved hash join is total whenever the step's field
range is populated (`lo ≤ hi`, `lo` valid); a step that finds no matches
leaves the join-table empty and every subsequent step of every engine
(improved hash again requiring populated ranges) keeps it empty, so the run
completes with an empty join-table; a step whose relation is empty — the
zero-row-relation case — produces the empty table under the naive hash and
both sort-merge variants, while the improved hash join instead fails its
assertion that the range is populated (see the counterexample). -/
theorem C8_empty_join_completes :
    (∀ jc jt index relation field_range,
      ∃ t, hash_join_step false jc jt index relation field_range = .ok t) ∧
    (∀ improved jc jt index relation field_range,
      ∃ t, sort_merge_join_step improved jc jt index relation field_range =
        .ok t) ∧
    (∀ jc jt index relation lo hi, lo ≤ hi → lo ≠ Field.INVALID →
      ∃ t, hash_join_step true jc jt index relation (lo, hi) = .ok t) ∧
    (∀ jc index relation field_range, index ≠ 0 →
      hash_join_step false jc [] index relation field_range = .ok []) ∧
    (∀ improved jc index relation field_range, index ≠ 0 →
      sort_merge_join_step improved jc [] index relation field_range =
        .ok []) ∧
    (∀ jc index relation lo hi, index ≠ 0 → lo ≤ hi →
      lo ≠ Field.INVALID →
      hash_join_step true jc [] index relation (lo, hi) = .ok []) ∧
    (∀ jc jt index field_range, index ≠ 0 →
      hash_join_step false jc jt index [] field_range = .ok []) ∧
    (∀ improved jc jt index field_range, index ≠ 0 →
      sort_merge_join_step improved jc jt index [] field_range = .ok []) ∧
    (∀ jc rest i, i ≠ 0 →
      runEngineGo (hash_join_step false jc) i rest [] = .ok []) ∧
    (∀ improved jc rest i, i ≠ 0 →
      runEngineGo (sort_merge_join_step improved jc) i rest [] = .ok []) ∧
    (∀ jc (rest : List (Relation × (Nat × Nat))) i, i ≠ 0 →
      (∀ p ∈ rest, p.2.1 ≤ p.2.2 ∧ p.2.1 ≠ Field.INVALID) →
      runEngineGo (hash_join_step true jc) i rest [] = .ok []) := by
  refine ⟨hash_naive_step_ok, sort_step_ok, hash_improved_step_ok,
    hash_naive_step_empty, ?_, ?_, hash_naive_step_empty_rel, ?_,
    runEngineGo_hash_naive_empty, ?_, runEngineGo_hash_improved_empty⟩
  · intro improved jc index relation field_range h0
    exact sort_step_empty improved jc index relation field_range h0
  · intro jc index relation lo hi h0 h1 h2
    exact hash_improved_step_empty jc index relation lo hi h0 h1 h2
  · intro improved jc jt index field_range h0
    exact sort_step_empty_rel improved jc jt index field_range h0
  · intro improved jc rest i hi
    exact runEngineGo_sort_empty improved jc rest i hi

/-- Witness for C8 (amended) at concrete step inputs. -/
theorem C8_witness :
    hash_join_step false 2 [] 1 [(3, 4)] (0, 5) = .ok [] ∧
    sort_merge_join_step true 2 [[0, 1, Field.INVALID]] 1 [] (0, 5) =
      .ok [] ∧
    runEngineGo (hash_join_step true 2) 1 [([(3, 4)], (2, 6))] [] =
      .ok [] :=
  ⟨(C8_empty_join_completes).2.2.2.1 2 1 [(3, 4)] (0, 5) (by decide),
   (C8_empty_join_completes).2.2.2.2.2.2.2.1 true 2 [[0, 1, Field.INVALID]]
     1 (0, 5) (by decide),
   (C8_empty_join_completes).2.2.2.2.2.2.2.2.2.2 2 [([(3, 4)], (2, 6))] 1
     (by decide) (by decide)⟩

/-- Witness for C9 on the terminated S1 input's relation `p`. -/
theorem C9_witness :
    ∃ p, p ∈ ([(⟨0, 1⟩, ⟨4, 1⟩), (⟨7, 1⟩, ⟨11, 1⟩)] : StrRelation) ∧
      Str.bytes termS1File p.2 = ascii "x" ∧ extract_field p.1 = 0 ∧
      List.find? (fun q => Str.bytes termS1File q.2 == ascii "x")
        [(⟨0, 1⟩, ⟨4, 1⟩), (⟨7, 1⟩, ⟨11, 1⟩)] = some p :=
  C9_dictionary_sound termS1File [(⟨0, 1⟩, ⟨4, 1⟩), (⟨7, 1⟩, ⟨11, 1⟩)]
    (ascii "x") 0 (by decide)

end SparqlJoin
